import Mathlib

/-!
Shallow embedding of the AgDash data pipeline.

Source files:
* `src/scripts/fetch_ag_data_robust.py` — fetch, merge, clean, derive, save.
* `src/scripts/test_enhanced_script.py` — tests of the disclosure reconciler
  `process_county_records` (imported from `fetch_ag_data_enhanced.py`, a file
  that is not part of this repository; it is modelled from the spec below).

Conventions: pandas cells are `Option String` before numeric cleaning and
`Option ℚ` after it (`none` = NaN/absent); machine floats are modelled as
exact rationals; tables are lists of key/cells rows.
-/

namespace AgDash

/-! ### Numeric cleaning

Embeds `main` (fetch_ag_data_robust.py, lines 315–326):

    clean_series = merged[col].astype(str).str.strip().str.replace(",", "", regex=False)
    merged[col] = pd.to_numeric(clean_series, errors='coerce')

`str.strip` removes surrounding whitespace, `str.replace(",", "")` removes
every comma, and `pd.to_numeric(..., errors='coerce')` parses a decimal
numeral (turning anything unparsable into NaN, i.e. `none`).
-/

/-- Whitespace as stripped by `str.strip`. -/
def wsChar (c : Char) : Bool :=
  c == ' ' || c == '\t' || c == '\n' || c == '\r' || c == '\x0b' || c == '\x0c'

/-- `str.strip`: drop whitespace from both ends. -/
def stripChars (cs : List Char) : List Char :=
  ((cs.dropWhile wsChar).reverse.dropWhile wsChar).reverse

/-- `str.replace(",", "", regex=False)`: remove every comma. -/
def removeCommas (cs : List Char) : List Char :=
  cs.filter (fun c => c != ',')

/-- Value of a decimal digit character. -/
def digit? (c : Char) : Option Nat :=
  if '0' ≤ c ∧ c ≤ '9' then some (c.toNat - 48) else none

/-- One step of reading a decimal numeral left to right. -/
def pushDigit (acc : Option Nat) (c : Char) : Option Nat :=
  acc.bind fun a => (digit? c).map fun d => 10 * a + d

/-- Parse a non-empty all-digit string as a natural number. -/
def parseNatChars (cs : List Char) : Option Nat :=
  if cs.isEmpty then none else cs.foldl pushDigit (some 0)

/-- Parse an unsigned decimal numeral, with an optional fractional part
(`pd.to_numeric` on `"123"` or `"123.45"`). -/
def parseUnsignedChars (cs : List Char) : Option ℚ :=
  if (cs.dropWhile fun c => c != '.').isEmpty then
    (parseNatChars cs).map fun n => (n : ℚ)
  else
    (parseNatChars (cs.takeWhile fun c => c != '.')).bind fun i : ℕ =>
      (parseNatChars ((cs.dropWhile fun c => c != '.').tail)).map fun f : ℕ =>
        (i : ℚ) + (f : ℚ) /
          (10 : ℚ) ^ ((cs.dropWhile fun c => c != '.').tail).length

/-- Parse a signed decimal numeral. -/
def parseSignedChars (cs : List Char) : Option ℚ :=
  match cs with
  | c :: rest =>
    if c = '-' then (parseUnsignedChars rest).map fun q => -q
    else parseUnsignedChars (c :: rest)
  | [] => parseUnsignedChars []

/-- The per-value cleaning step of `main` (lines 319–320): strip surrounding
whitespace, remove commas, parse as a decimal number, coercing failures to
absent. -/
def clean_value (s : String) : Option ℚ :=
  parseSignedChars (removeCommas (stripChars s.data))

/-- `astype(str)` on a raw (string-or-NaN) cell: NaN prints as `"nan"`. -/
def astype_str (c : Option String) : String := c.getD "nan"

/-- Cleaning applied to one raw cell of a merged column. -/
def clean_cell (c : Option String) : Option ℚ := clean_value (astype_str c)

/-- Cleaning applied to a whole raw column. -/
def clean_column (col : List (Option String)) : List (Option ℚ) :=
  col.map clean_cell

end AgDash

namespace AgDash

/-! ### Decimal rendering

`astype(str)` on an already-numeric (float64) column prints NaN as `"nan"`
and a finite value as a decimal numeral with a decimal point (`7500.0`,
`0.5`).  Floats are modelled as rationals whose denominator divides a power
of ten, rendered exactly. -/

/-- The character of a decimal digit. -/
def digitChar (d : Nat) : Char := Char.ofNat (48 + d)

/-- Little-endian base-10 digits, structurally recursive on a fuel bound. -/
def natDigitsAux : Nat → Nat → List Nat
  | 0, _ => []
  | fuel + 1, n => if n = 0 then [] else n % 10 :: natDigitsAux fuel (n / 10)

/-- Little-endian base-10 digits of a natural number. -/
def natDigits (n : Nat) : List Nat := natDigitsAux n n

/-- Big-endian decimal digit characters of a natural number. -/
def natChars (n : Nat) : List Char :=
  if n = 0 then ['0'] else ((natDigits n).map digitChar).reverse

/-- Least `k` with `d ∣ 10 ^ k` (when one exists below `d + 1`). -/
def pow10exp (d : Nat) : Nat :=
  (((List.range (d + 1)).find? fun k => 10 ^ k % d == 0).getD 0)

/-- The digits of `|q|` in the style of Python float printing (always with
a decimal point), for `q` whose denominator divides a power of ten. -/
def renderBody (q : ℚ) : List Char :=
  let k := pow10exp q.den
  let n := q.num.natAbs * 10 ^ k / q.den
  if k = 0 then natChars n ++ ['.', '0']
  else natChars (n / 10 ^ k) ++ '.' ::
    (List.replicate (k - (natChars (n % 10 ^ k)).length) '0' ++
      natChars (n % 10 ^ k))

/-- Decimal rendering of a rational whose denominator divides a power of
ten. -/
def renderRat (q : ℚ) : List Char :=
  if q < 0 then '-' :: renderBody q else renderBody q

/-- `astype(str)` on a numeric cell. -/
def float_repr (c : Option ℚ) : String :=
  match c with
  | none => "nan"
  | some q => ⟨renderRat q⟩

/-- Re-cleaning a numeric cell: stringify, strip, remove commas, re-parse. -/
def reclean_cell (c : Option ℚ) : Option ℚ := clean_value (float_repr c)

/-- Re-cleaning a whole numeric column. -/
def reclean_column (col : List (Option ℚ)) : List (Option ℚ) :=
  col.map reclean_cell

end AgDash

namespace AgDash

/-! ### Disclosure reconciler

`test_enhanced_script.py` imports `process_county_records` from
`fetch_ag_data_enhanced.py`, a module that is not part of this repository.
The reconciler is therefore modelled from spec §4.2. -/

/-- One API record as consumed by the reconciler: the disclosure category
label and the raw value string. -/
structure RawRecord where
  domaincat_desc : String
  Value : String

/-- Modelled from the spec: the genuine numeric values among the records
labelled with the aggregate/total category `"NOT SPECIFIED"` (spec §4.2;
`process_county_records` itself is missing from the repository).  Numeric
parsing tolerates thousands-separators and surrounding whitespace; a value
that fails to parse is treated like a suppression marker. -/
def aggregate_values (records : List RawRecord) : List ℚ :=
  records.filterMap fun r =>
    if r.domaincat_desc = "NOT SPECIFIED" then clean_value r.Value else none

/-- Modelled from the spec: the genuine numeric values among the
disaggregated subcategory records (every record not labelled
`"NOT SPECIFIED"`); suppressed or malformed subcategory values are
dropped, i.e. contribute nothing (spec §4.2). -/
def subcategory_values (records : List RawRecord) : List ℚ :=
  records.filterMap fun r =>
    if r.domaincat_desc = "NOT SPECIFIED" then none else clean_value r.Value

/-- Modelled from the spec: `process_county_records` (spec §4.2, missing
from the repository).  A genuine aggregate value is authoritative and
reported with `estimated = false`; otherwise the genuine subcategory
values are summed with `estimated = true`; if no record yields a usable
number the result is absent with `estimated = false`.  The function is
total: malformed records never raise. -/
def process_county_records (records : List RawRecord) : Option ℚ × Bool :=
  match (aggregate_values records).head? with
  | some v => (some v, false)
  | none =>
    let subs := subcategory_values records
    if subs.isEmpty then (none, false) else (some subs.sum, true)

/-! ### Fetch projection

`fetch_metric_multistate` (fetch_ag_data_robust.py, lines 172–177):

    df = pd.DataFrame(data["data"])
    df = df[["state_name", "county_name", "year", "Value"]]
-/

/-- One record of the QuickStats JSON payload — the fields the script
touches (real payloads carry further fields, all discarded the same way
as `domaincat_desc`). -/
structure ApiRecord where
  state_name : String
  county_name : String
  year : String
  Value : String
  domaincat_desc : String

/-- A row of the projected per-metric table: exactly the four retained
columns. -/
structure SlimRow where
  state_name : String
  county_name : String
  year : String
  Value : String

/-- `df[["state_name", "county_name", "year", "Value"]]` applied to one
record. -/
def select_columns (r : ApiRecord) : SlimRow :=
  { state_name := r.state_name, county_name := r.county_name,
    year := r.year, Value := r.Value }

/-- The rows `fetch_metric_multistate` accumulates for one metric (the
concatenation over states of the projected records). -/
def fetch_metric_rows (records : List ApiRecord) : List SlimRow :=
  records.map select_columns

/-! ### Merged tables -/

/-- The join key `(state_name, county_name, year)`. -/
abbrev Key := String × String × String

/-- A pandas DataFrame as used by `main`: the join-key columns plus one
cell per metric column (`none` = NaN). -/
structure Frame where
  colNames : List String
  rows : List (Key × List (Option String))
deriving DecidableEq

/-- Each row carries one cell per column. -/
def Frame.WF (F : Frame) : Prop :=
  ∀ r ∈ F.rows, r.2.length = F.colNames.length

instance : DecidablePred Frame.WF := fun F =>
  inferInstanceAs (Decidable (∀ r ∈ F.rows, r.2.length = F.colNames.length))

/-- The key column of a frame. -/
def Frame.keys (F : Frame) : List Key := F.rows.map Prod.fst

/-- The per-metric frame built from the projected records after
`df.rename(columns={"Value": col_name})` (`main`, line 253). -/
def frame_of_fetch (metric : String) (records : List ApiRecord) : Frame :=
  { colNames := [metric]
    rows := records.map fun r =>
      ((r.state_name, r.county_name, r.year), [some r.Value]) }

/-- `pd.merge(left, right, on=["state_name", "county_name", "year"],
how="outer")` (`main`, lines 297–302): each left row is paired with every
right row sharing its key (cartesian on duplicated keys), left rows
without a match are padded with NaN on the right, and right rows whose
key never occurs on the left are appended, padded with NaN on the left. -/
def merge_outer (A B : Frame) : Frame :=
  { colNames := A.colNames ++ B.colNames
    rows :=
      (A.rows.flatMap fun ra =>
        match B.rows.filter (fun rb => decide (rb.1 = ra.1)) with
        | [] => [(ra.1, ra.2 ++ List.replicate B.colNames.length none)]
        | ms => ms.map fun rb => (ra.1, ra.2 ++ rb.2)) ++
      ((B.rows.filter fun rb => A.rows.all fun ra => !decide (ra.1 = rb.1)).map
        fun rb => (rb.1, List.replicate A.colNames.length none ++ rb.2)) }

/-- `reduce(lambda left, right: pd.merge(...), frames)` (`main`,
lines 297–302). -/
def merge_all (f : Frame) (fs : List Frame) : Frame :=
  fs.foldl merge_outer f

/-! ### Cleaning and derived fields on the merged table -/

/-- The merged table after numeric cleaning: one rational-or-NaN cell per
metric column. -/
structure NumFrame where
  colNames : List String
  rows : List (Key × List (Option ℚ))
deriving DecidableEq

/-- The cleaning loop of `main` (lines 315–326) applied to every metric
column of the merged table. -/
def clean_frame (F : Frame) : NumFrame :=
  { colNames := F.colNames
    rows := F.rows.map fun r => (r.1, r.2.map clean_cell) }

/-- `grass_seed_cols` (`main`, lines 334–340). -/
def grass_seed_cols : List String :=
  ["grass_seed_bentgrass_acres", "grass_seed_bermudagrass_acres",
   "grass_seed_bluegrass_acres", "grass_seed_bromegrass_acres",
   "grass_seed_fescue_acres", "grass_seed_orchardgrass_acres",
   "grass_seed_ryegrass_acres", "grass_seed_sudangrass_acres",
   "grass_seed_timothy_acres", "grass_seed_wheatgrass_acres"]

/-- `existing_grass_cols = [col for col in grass_seed_cols if col in
merged.columns]` (`main`, line 342). -/
def existing_grass_cols (colNames : List String) : List String :=
  grass_seed_cols.filter fun c => colNames.contains c

/-- The cell of a named column in a row. -/
def colValue (colNames : List String) (cells : List (Option ℚ)) (c : String) :
    Option ℚ :=
  match (colNames.zip cells).find? (fun p => p.1 == c) with
  | some p => p.2
  | none => none

/-- The derived rollup for one row (`main`, lines 345–346):
`fillna(0).sum(axis=1)`, overwritten with NaN on rows whose family cells
are all NaN. -/
def grass_rollup (cells : List (Option ℚ)) : Option ℚ :=
  if cells.all fun c => c.isNone then none
  else some (cells.map fun c => c.getD 0).sum

/-- Appending the `grass_seed_acres` column (`main`, lines 342–347); no
column is added when no grass-seed family column is present. -/
def add_grass_rollup (F : NumFrame) : NumFrame :=
  let existing := existing_grass_cols F.colNames
  if existing.isEmpty then F
  else
    { colNames := F.colNames ++ ["grass_seed_acres"]
      rows := F.rows.map fun r =>
        (r.1, r.2 ++ [grass_rollup (existing.map (colValue F.colNames r.2))]) }

/-! ### Post-fetch control flow of `main` -/

/-- What a run of `main` does after the fetch loop: whether and what it
writes to `ag_data.csv`, and whether the process ends abnormally.  The
modelled paths raise nothing, so the `__main__` guard (lines 389–396)
re-raises nothing and the process exits normally on both. -/
structure MainOutcome where
  wrote : Option NumFrame
  abnormalExit : Bool
deriving DecidableEq

/-- `main` after the fetch loop (lines 286–359): empty per-metric results
are dropped (`if not df.empty`); if no metric produced rows, `main` logs
`CRITICAL` and returns without writing (line 286–288, a plain `return`);
otherwise the frames are outer-merged, cleaned, extended with the rollup
and written. -/
def main_after_fetch (results : List Frame) : MainOutcome :=
  let frames := results.filter fun f => !f.rows.isEmpty
  match frames with
  | [] => { wrote := none, abnormalExit := false }
  | f :: fs =>
    { wrote := some (add_grass_rollup (clean_frame (merge_all f fs)))
      abnormalExit := false }

end AgDash

namespace AgDash

/-! ### Claims C1–C3: the disclosure reconciler -/

/-- C1: for every finite list of RawRecords containing a record labelled
with the aggregate/total category `"NOT SPECIFIED"` whose value parses as
a genuine number, `process_county_records` returns such an aggregate value
with `estimated = false`, regardless of the subcategory rows present. -/
theorem claim_C1 (records : List RawRecord)
    (h : ∃ r ∈ records, r.domaincat_desc = "NOT SPECIFIED" ∧
      (clean_value r.Value).isSome) :
    (process_county_records records).2 = false ∧
      ∃ r ∈ records, r.domaincat_desc = "NOT SPECIFIED" ∧
        clean_value r.Value = (process_county_records records).1 ∧
        (process_county_records records).1.isSome := by
  obtain ⟨r, hr, hlab, hsome⟩ := h
  obtain ⟨v, hv⟩ := Option.isSome_iff_exists.mp hsome
  have hmem : v ∈ aggregate_values records :=
    List.mem_filterMap.mpr ⟨r, hr, by simp [hlab, hv]⟩
  rcases haggs : aggregate_values records with _ | ⟨v₀, t⟩
  · rw [haggs] at hmem; simp at hmem
  · have hout : process_county_records records = (some v₀, false) := by
      simp [process_county_records, haggs]
    have hv₀ : v₀ ∈ aggregate_values records := by
      rw [haggs]; exact List.mem_cons_self v₀ t
    obtain ⟨r₀, hr₀, hcl⟩ := List.mem_filterMap.mp hv₀
    rw [hout]
    refine ⟨rfl, r₀, hr₀, ?_⟩
    by_cases hc : r₀.domaincat_desc = "NOT SPECIFIED"
    · simp only [hc, if_pos] at hcl
      exact ⟨hc, by simp [hcl], by simp⟩
    · simp [hc] at hcl

/-- C1 witness. -/
theorem claim_C1_witness :
    (process_county_records
        [⟨"NOT SPECIFIED", "12,345"⟩, ⟨"CATTLE", "5,000"⟩]).2 = false ∧
      ∃ r ∈ [RawRecord.mk "NOT SPECIFIED" "12,345", ⟨"CATTLE", "5,000"⟩],
        r.domaincat_desc = "NOT SPECIFIED" ∧
        clean_value r.Value =
          (process_county_records
            [⟨"NOT SPECIFIED", "12,345"⟩, ⟨"CATTLE", "5,000"⟩]).1 ∧
        (process_county_records
          [⟨"NOT SPECIFIED", "12,345"⟩, ⟨"CATTLE", "5,000"⟩]).1.isSome :=
  claim_C1 _ (by decide)

/-- C2: when no aggregate record carries a genuine value but at least one
subcategory does, `process_county_records` returns the sum of exactly the
genuinely numeric subcategory values with `estimated = true`; suppressed
or malformed records contribute nothing to that sum and never raise. -/
theorem claim_C2 (records : List RawRecord)
    (hagg : ∀ r ∈ records, r.domaincat_desc = "NOT SPECIFIED" →
      clean_value r.Value = none)
    (hsub : ∃ r ∈ records, r.domaincat_desc ≠ "NOT SPECIFIED" ∧
      (clean_value r.Value).isSome) :
    process_county_records records =
        (some (subcategory_values records).sum, true) ∧
      ∀ r' : RawRecord, clean_value r'.Value = none →
        subcategory_values (r' :: records) = subcategory_values records := by
  constructor
  · have haggs : aggregate_values records = [] := by
      refine List.filterMap_eq_nil_iff.mpr fun r hr => ?_
      by_cases hc : r.domaincat_desc = "NOT SPECIFIED"
      · simp [hc, hagg r hr hc]
      · simp [hc]
    obtain ⟨r, hr, hlab, hsome⟩ := hsub
    obtain ⟨v, hv⟩ := Option.isSome_iff_exists.mp hsome
    have hmem : v ∈ subcategory_values records :=
      List.mem_filterMap.mpr ⟨r, hr, by simp [hlab, hv]⟩
    have hne : subcategory_values records ≠ [] := by
      intro hnil; rw [hnil] at hmem; simp at hmem
    simp [process_county_records, haggs, List.isEmpty_iff, hne]
  · intro r' hr'
    by_cases hc : r'.domaincat_desc = "NOT SPECIFIED" <;>
      simp [subcategory_values, List.filterMap_cons, hc, hr']

/-- C2 witness (the spec §8 scenario: suppressed aggregate plus
subcategories 5,000 and 2,500). -/
theorem claim_C2_witness :
    process_county_records
        [⟨"NOT SPECIFIED", "(D)"⟩, ⟨"A", "5,000"⟩, ⟨"B", "2,500"⟩] =
        (some (subcategory_values
          [⟨"NOT SPECIFIED", "(D)"⟩, ⟨"A", "5,000"⟩, ⟨"B", "2,500"⟩]).sum,
          true) ∧
      ∀ r' : RawRecord, clean_value r'.Value = none →
        subcategory_values
            (r' :: [⟨"NOT SPECIFIED", "(D)"⟩, ⟨"A", "5,000"⟩, ⟨"B", "2,500"⟩]) =
          subcategory_values
            [⟨"NOT SPECIFIED", "(D)"⟩, ⟨"A", "5,000"⟩, ⟨"B", "2,500"⟩] :=
  claim_C2 _ (by decide) (by decide)

/-- C3: when no record yields a usable number (including the empty list),
`process_county_records` returns absent with `estimated = false`; being a
total function it raises nothing on any input. -/
theorem claim_C3 (records : List RawRecord)
    (h : ∀ r ∈ records, clean_value r.Value = none) :
    process_county_records records = (none, false) := by
  have haggs : aggregate_values records = [] :=
    List.filterMap_eq_nil_iff.mpr fun r hr => by
      by_cases hc : r.domaincat_desc = "NOT SPECIFIED" <;> simp [hc, h r hr]
  have hsubs : subcategory_values records = [] :=
    List.filterMap_eq_nil_iff.mpr fun r hr => by
      by_cases hc : r.domaincat_desc = "NOT SPECIFIED" <;> simp [hc, h r hr]
  simp [process_county_records, haggs, hsubs]

/-- C3 witness (all values suppressed or malformed). -/
theorem claim_C3_witness :
    process_county_records [⟨"NOT SPECIFIED", "(D)"⟩, ⟨"A", "(D)"⟩, ⟨"B", "x"⟩] =
      (none, false) :=
  claim_C3 _ (by decide)

end AgDash

namespace AgDash

/-! ### Claims C4–C5: column projection and numeric cleaning -/

theorem stripChars_append_left {pre l : List Char}
    (h : ∀ c ∈ pre, wsChar c = true) :
    stripChars (pre ++ l) = stripChars l := by
  unfold stripChars
  rw [List.dropWhile_append_of_pos h]

theorem stripChars_append_right {post l : List Char}
    (h : ∀ c ∈ post, wsChar c = true) :
    stripChars (l ++ post) = stripChars l := by
  unfold stripChars
  rw [List.dropWhile_append]
  by_cases hl : (l.dropWhile wsChar).isEmpty
  · have hnil : l.dropWhile wsChar = [] := by
      cases hcase : l.dropWhile wsChar with
      | nil => rfl
      | cons a t => rw [hcase] at hl; simp at hl
    have hpost : post.dropWhile wsChar = [] := by
      induction post with
      | nil => rfl
      | cons a t ih =>
        have ha := h a (List.mem_cons_self a t)
        simp only [List.dropWhile_cons, ha, if_pos]
        exact ih fun c hc => h c (List.mem_cons_of_mem a hc)
    simp [hl, hnil, hpost]
  · have hrev : ∀ c ∈ post.reverse, wsChar c = true := fun c hc =>
      h c (List.mem_reverse.mp hc)
    simp only [hl, if_neg, Bool.false_eq_true, not_false_iff, if_false]
    rw [List.reverse_append, List.dropWhile_append_of_pos hrev]

/-- C4: `fetch_metric_multistate` keeps exactly the four columns
`state_name`, `county_name`, `year`, `Value` — the projection ignores the
disclosure category label and passes the raw `Value` string through
unchanged — and in the pipeline a suppression marker such as `"(D)"` is
only turned into an absent cell by the later cleaning step, never
estimated. -/
theorem claim_C4 :
    (∀ (r : ApiRecord) (c : String),
        select_columns { r with domaincat_desc := c } = select_columns r) ∧
    (∀ r : ApiRecord,
        (select_columns r).state_name = r.state_name ∧
        (select_columns r).county_name = r.county_name ∧
        (select_columns r).year = r.year ∧
        (select_columns r).Value = r.Value) ∧
    (∀ a b : SlimRow, a.state_name = b.state_name →
        a.county_name = b.county_name → a.year = b.year → a.Value = b.Value →
        a = b) ∧
    (∀ (m : String) (records : List ApiRecord),
        fetch_metric_rows records = records.map select_columns ∧
        (frame_of_fetch m records).rows =
          records.map fun r =>
            ((r.state_name, r.county_name, r.year), [some r.Value])) ∧
    clean_cell (some "(D)") = none ∧ clean_cell none = none := by
  refine ⟨fun r c => rfl, fun r => ⟨rfl, rfl, rfl, rfl⟩, ?_,
    fun m records => ⟨rfl, rfl⟩, by decide, by decide⟩
  intro a b h1 h2 h3 h4
  cases a; cases b
  simp_all

/-- C4 witness. -/
theorem claim_C4_witness :
    (⟨"OREGON", "LANE", "2022", "(D)"⟩ : SlimRow) =
      select_columns ⟨"OREGON", "LANE", "2022", "(D)", "NOT SPECIFIED"⟩ :=
  claim_C4.2.2.1 _ _ rfl rfl rfl rfl

/-- C5: the cleaner strips surrounding whitespace, removes
thousands-separator commas, and parses the rest as a decimal number;
values that fail to parse become absent (not zero, not an error), and a
genuine zero is kept as `0`, distinct from absent. -/
theorem claim_C5 :
    (∀ (s : String) (pre post : List Char),
        (∀ c ∈ pre, wsChar c = true) → (∀ c ∈ post, wsChar c = true) →
        clean_value ⟨pre ++ s.data ++ post⟩ = clean_value s) ∧
    (∀ cs₁ cs₂ : List Char,
        removeCommas (cs₁ ++ ',' :: cs₂) = removeCommas (cs₁ ++ cs₂)) ∧
    (∀ s : String,
        parseSignedChars (removeCommas (stripChars s.data)) = none →
        clean_value s = none) ∧
    clean_value " 1,234 " = some 1234 ∧ clean_value "(D)" = none ∧
    clean_value "" = none ∧ clean_value "0" = some 0 ∧
    some (0 : ℚ) ≠ (none : Option ℚ) := by
  refine ⟨?_, ?_, fun s h => h, by decide, by decide, by decide, by decide,
    by decide⟩
  · intro s pre post hpre hpost
    show parseSignedChars (removeCommas (stripChars (pre ++ s.data ++ post))) = _
    rw [List.append_assoc, stripChars_append_left hpre,
      stripChars_append_right hpost]
    rfl
  · intro cs₁ cs₂
    simp [removeCommas, List.filter_append]

/-- C5 witness. -/
theorem claim_C5_witness :
    clean_value ⟨[' '] ++ "1,234".data ++ [' ', '\t']⟩ = clean_value "1,234" ∧
      removeCommas (['1'] ++ ',' :: ['2', '3', '4']) =
        removeCommas (['1'] ++ ['2', '3', '4']) :=
  ⟨claim_C5.1 "1,234" [' '] [' ', '\t'] (by decide) (by decide),
    claim_C5.2.1 ['1'] ['2', '3', '4']⟩

end AgDash

namespace AgDash

/-! ### Claims C9–C10: derived rollup and the no-data abort -/

theorem sum_fillna (cells : List (Option ℚ)) :
    (cells.map fun c => c.getD 0).sum = (cells.filterMap id).sum := by
  induction cells with
  | nil => rfl
  | cons c t ih => cases c <;> simp [ih]

/-- C9: the `grass_seed_acres` rollup is absent when every present family
cell is absent, and otherwise equals the sum of the present members with
absent members contributing 0 — it never defaults to zero when all inputs
are missing. -/
theorem claim_C9 (cells : List (Option ℚ)) :
    ((∀ c ∈ cells, c = none) → grass_rollup cells = none) ∧
    ((∃ c ∈ cells, c.isSome) →
      grass_rollup cells = some ((cells.filterMap id).sum) ∧
        grass_rollup cells ≠ none) := by
  constructor
  · intro h
    have hall : cells.all (fun c => c.isNone) = true :=
      List.all_eq_true.mpr fun c hc => by simp [h c hc]
    simp [grass_rollup, hall]
  · intro h
    obtain ⟨c, hc, hsome⟩ := h
    have hall : cells.all (fun c => c.isNone) ≠ true := by
      intro htrue
      have hforall := List.all_eq_true.mp htrue
      have := hforall c hc
      simp [Option.isNone_iff_eq_none] at this
      rw [this] at hsome
      simp at hsome
    have hall' : cells.all (fun c => c.isNone) = false :=
      Bool.eq_false_iff.mpr hall
    rw [grass_rollup, if_neg (by simp [hall']), sum_fillna]
    exact ⟨rfl, by simp⟩

/-- C9 witness. -/
theorem claim_C9_witness :
    grass_rollup [none, none] = none ∧
      (grass_rollup [some 2, none] = some (([some 2, none].filterMap id).sum) ∧
        grass_rollup [some 2, none] ≠ none) :=
  ⟨(claim_C9 [none, none]).1 (by decide), (claim_C9 [some 2, none]).2 (by decide)⟩

/-- C10 counterexample: when every per-metric fetch yields an empty
result, `main` logs CRITICAL and `return`s — the modelled run does abort
before writing the output, but the process ends normally; the claimed
non-zero-equivalent abnormal exit does not happen. -/
theorem claim_C10_counterexample :
    (main_after_fetch [⟨["farms"], []⟩]).wrote = none ∧
      ¬((main_after_fetch [⟨["farms"], []⟩]).abnormalExit = true) := by decide

/-- C10 (amended): if no metric produces any data, the run aborts before
writing the merged output file, and the process exits normally (the early
`return` in `main`, line 288, raises nothing for the `__main__` guard to
re-raise). -/
theorem claim_C10 (results : List Frame)
    (h : ∀ f ∈ results, f.rows.isEmpty = true) :
    main_after_fetch results = { wrote := none, abnormalExit := false } := by
  have hnil : results.filter (fun f => !f.rows.isEmpty) = [] :=
    List.filter_eq_nil_iff.mpr fun f hf => by simp [h f hf]
  unfold main_after_fetch
  rw [hnil]

/-- C10 witness. -/
theorem claim_C10_witness :
    main_after_fetch [⟨["farms"], []⟩, ⟨["hay_acres"], []⟩] =
      { wrote := none, abnormalExit := false } :=
  claim_C10 _ (by decide)

end AgDash

namespace AgDash

/-! ### Claims C7–C8: the outer-join fold -/

/-- The cells a frame contributes for a key: the matching row's cells, or
one NaN per column when the key is absent. -/
def cellsOf (F : Frame) (k : Key) : List (Option String) :=
  match F.rows.find? (fun r => decide (r.1 = k)) with
  | some r => r.2
  | none => List.replicate F.colNames.length none

/-- The key column of one outer merge: left keys, then the right keys new
to the left. -/
def mergedKeys (A B : Frame) : List Key :=
  A.keys ++ B.keys.filter fun k => !decide (k ∈ A.keys)

theorem flatMap_eq_map_of_forall {α β : Type} {l : List α} {f : α → List β}
    {g : α → β} (h : ∀ a ∈ l, f a = [g a]) : l.flatMap f = l.map g := by
  induction l with
  | nil => rfl
  | cons a t ih =>
    rw [List.flatMap_cons, h a (List.mem_cons_self a t),
      ih fun x hx => h x (List.mem_cons_of_mem a hx)]
    rfl

theorem find?_key_of_mem {α : Type} {rows : List (Key × α)}
    (hnd : (rows.map Prod.fst).Nodup) {r : Key × α} (hr : r ∈ rows) :
    rows.find? (fun x => decide (x.1 = r.1)) = some r := by
  induction rows with
  | nil => simp at hr
  | cons a t ih =>
    rw [List.map_cons, List.nodup_cons] at hnd
    rcases List.mem_cons.mp hr with rfl | hrt
    · simp [List.find?_cons]
    · have hne : ¬(a.1 = r.1) := by
        intro he
        exact hnd.1 (he ▸ List.mem_map_of_mem Prod.fst hrt)
      simp only [List.find?_cons, decide_eq_true_eq, hne, decide_False]
      exact ih hnd.2 hrt

theorem filter_key_eq {α : Type} {rows : List (Key × α)}
    (hnd : (rows.map Prod.fst).Nodup) (k : Key) :
    rows.filter (fun x => decide (x.1 = k)) =
      (rows.find? (fun x => decide (x.1 = k))).toList := by
  induction rows with
  | nil => rfl
  | cons a t ih =>
    rw [List.map_cons, List.nodup_cons] at hnd
    by_cases hk : a.1 = k
    · have hnil : t.filter (fun x => decide (x.1 = k)) = [] :=
        List.filter_eq_nil_iff.mpr fun x hx => by
          simp only [decide_eq_true_eq]
          intro he
          exact hnd.1 (by rw [hk, ← he]; exact List.mem_map_of_mem Prod.fst hx)
      simp [List.filter_cons, List.find?_cons, hk, hnil]
    · simp only [List.filter_cons, List.find?_cons, decide_eq_true_eq, hk,
        decide_False, if_false]
      exact ih hnd.2

theorem cellsOf_of_not_mem {F : Frame} {k : Key} (h : k ∉ F.keys) :
    cellsOf F k = List.replicate F.colNames.length none := by
  rw [cellsOf, List.find?_eq_none.mpr]
  intro x hx
  simp only [decide_eq_true_eq]
  intro he
  exact h (he ▸ List.mem_map_of_mem Prod.fst hx)

theorem merge_rows_eq (A B : Frame) (hA : A.keys.Nodup) (hB : B.keys.Nodup) :
    (merge_outer A B).rows =
      (mergedKeys A B).map fun k => (k, cellsOf A k ++ cellsOf B k) := by
  have hpart1 : (A.rows.flatMap fun ra =>
      match B.rows.filter (fun rb => decide (rb.1 = ra.1)) with
      | [] => [(ra.1, ra.2 ++ List.replicate B.colNames.length none)]
      | ms => ms.map fun rb => (ra.1, ra.2 ++ rb.2)) =
      A.rows.map fun ra => (ra.1, cellsOf A ra.1 ++ cellsOf B ra.1) := by
    refine flatMap_eq_map_of_forall fun ra hra => ?_
    have hcellsA : cellsOf A ra.1 = ra.2 := by
      rw [cellsOf, find?_key_of_mem hA hra]
    rw [filter_key_eq hB ra.1]
    cases hfind : B.rows.find? (fun rb => decide (rb.1 = ra.1)) with
    | none =>
      have hcellsB : cellsOf B ra.1 =
          List.replicate B.colNames.length none := by
        rw [cellsOf, hfind]
      simp [hcellsA, hcellsB]
    | some rb =>
      have hcellsB : cellsOf B ra.1 = rb.2 := by
        rw [cellsOf, hfind]
      simp [hcellsA, hcellsB]
  have hpred : ∀ rb : Key × List (Option String),
      (A.rows.all fun ra => !decide (ra.1 = rb.1)) = !decide (rb.1 ∈ A.keys) := by
    intro rb
    rw [Bool.eq_iff_iff]
    simp only [List.all_eq_true, Bool.not_eq_true', decide_eq_false_iff_not,
      decide_eq_true_eq, Bool.not_eq_true]
    constructor
    · intro h hmem
      obtain ⟨ra, hra, hkey⟩ := List.mem_map.mp hmem
      exact h ra hra hkey
    · intro h ra hra hkey
      exact h (hkey ▸ List.mem_map_of_mem Prod.fst hra)
  have hpart2 : ((B.rows.filter fun rb =>
      A.rows.all fun ra => !decide (ra.1 = rb.1)).map
        fun rb => (rb.1, List.replicate A.colNames.length none ++ rb.2)) =
      (B.keys.filter fun k => !decide (k ∈ A.keys)).map
        fun k => (k, cellsOf A k ++ cellsOf B k) := by
    have hfilter : (B.rows.filter fun rb =>
        A.rows.all fun ra => !decide (ra.1 = rb.1)) =
        B.rows.filter fun rb => !decide (rb.1 ∈ A.keys) :=
      List.filter_congr fun rb _ => hpred rb
    have hBkeys : B.keys = B.rows.map Prod.fst := rfl
    rw [hfilter, hBkeys, List.filter_map, List.map_map]
    simp only [Function.comp_def]
    apply List.map_congr_left
    intro rb hrb
    have hmem := List.mem_filter.mp hrb
    have hnotin : rb.1 ∉ A.keys := by
      have := hmem.2
      simp only [Function.comp, Bool.not_eq_true', decide_eq_false_iff_not] at this
      exact this
    have hcA := cellsOf_of_not_mem hnotin
    have hcB : cellsOf B rb.1 = rb.2 := by
      rw [cellsOf, find?_key_of_mem hB hmem.1]
    simp [hcA, hcB]
  show _ ++ _ = _
  rw [mergedKeys, List.map_append, hpart1, hpart2, Frame.keys, List.map_map]
  rfl

theorem merge_keys_eq (A B : Frame) (hA : A.keys.Nodup) (hB : B.keys.Nodup) :
    (merge_outer A B).keys = mergedKeys A B := by
  show (merge_outer A B).rows.map Prod.fst = _
  rw [merge_rows_eq A B hA hB, List.map_map]
  simp [Function.comp_def]

theorem mem_mergedKeys {A B : Frame} {k : Key} :
    k ∈ mergedKeys A B ↔ k ∈ A.keys ∨ k ∈ B.keys := by
  simp only [mergedKeys, List.mem_append, List.mem_filter,
    Bool.not_eq_true', decide_eq_false_iff_not]
  by_cases h : k ∈ A.keys <;> simp [h]

theorem mergedKeys_nodup {A B : Frame} (hA : A.keys.Nodup) (hB : B.keys.Nodup) :
    (mergedKeys A B).Nodup := by
  rw [mergedKeys, List.nodup_append]
  refine ⟨hA, hB.filter _, ?_⟩
  intro k hk1 hk2
  have hnot := (List.mem_filter.mp hk2).2
  simp only [Bool.not_eq_true', decide_eq_false_iff_not] at hnot
  exact hnot hk1

theorem cellsOf_length {F : Frame} (wf : F.WF) (k : Key) :
    (cellsOf F k).length = F.colNames.length := by
  cases hfind : F.rows.find? (fun r => decide (r.1 = k)) with
  | none => rw [cellsOf, hfind]; simp
  | some r => rw [cellsOf, hfind]; exact wf r (List.mem_of_find?_eq_some hfind)

theorem merge_WF {A B : Frame} (hA : A.keys.Nodup) (hB : B.keys.Nodup)
    (wfA : A.WF) (wfB : B.WF) : (merge_outer A B).WF := by
  intro r hr
  rw [merge_rows_eq A B hA hB] at hr
  obtain ⟨k, hk, rfl⟩ := List.mem_map.mp hr
  show (cellsOf A k ++ cellsOf B k).length = (A.colNames ++ B.colNames).length
  simp [cellsOf_length wfA, cellsOf_length wfB]

theorem find?_keyed_map {β : Type} (ks : List Key) (g : Key → β) (k : Key) :
    ((ks.map fun x => (x, g x)).find? fun r => decide (r.1 = k)) =
      (ks.find? fun x => decide (x = k)).map fun x => (x, g x) := by
  induction ks with
  | nil => rfl
  | cons a t ih =>
    by_cases h : a = k
    · simp [List.find?_cons, h]
    · simp only [List.map_cons, List.find?_cons, decide_eq_true_eq, h,
        decide_False, if_false]
      exact ih

theorem find?_self_of_mem {ks : List Key} {k : Key} (h : k ∈ ks) :
    (ks.find? fun x => decide (x = k)) = some k := by
  induction ks with
  | nil => simp at h
  | cons a t ih =>
    by_cases ha : a = k
    · simp [List.find?_cons, ha]
    · rcases List.mem_cons.mp h with rfl | ht
      · exact absurd rfl ha
      · simp [List.find?_cons, ha, ih ht]

theorem cellsOf_merge {A B : Frame} (hA : A.keys.Nodup) (hB : B.keys.Nodup)
    (k : Key) :
    cellsOf (merge_outer A B) k = cellsOf A k ++ cellsOf B k := by
  rw [cellsOf, merge_rows_eq A B hA hB, find?_keyed_map]
  by_cases hmem : k ∈ mergedKeys A B
  · rw [find?_self_of_mem hmem]
    rfl
  · rw [List.find?_eq_none.mpr ?_]
    · have hkA : k ∉ A.keys := fun hx => hmem (mem_mergedKeys.mpr (Or.inl hx))
      have hkB : k ∉ B.keys := fun hx => hmem (mem_mergedKeys.mpr (Or.inr hx))
      rw [cellsOf_of_not_mem hkA, cellsOf_of_not_mem hkB]
      show List.replicate (A.colNames ++ B.colNames).length none = _
      rw [List.length_append, List.replicate_add]
    · intro x hx
      simp only [decide_eq_true_eq]
      intro he
      exact hmem (he ▸ hx)

theorem merge_all_spec (f : Frame) (fs : List Frame)
    (h : ∀ G ∈ f :: fs, G.keys.Nodup ∧ G.WF) :
    (merge_all f fs).colNames = (f :: fs).flatMap Frame.colNames ∧
      (merge_all f fs).keys.Nodup ∧ (merge_all f fs).WF ∧
      (∀ k, k ∈ (merge_all f fs).keys ↔ ∃ G ∈ f :: fs, k ∈ G.keys) ∧
      (∀ k, cellsOf (merge_all f fs) k =
        (f :: fs).flatMap fun G => cellsOf G k) := by
  induction fs generalizing f with
  | nil =>
    exact ⟨by simp [merge_all], (h f (by simp)).1, (h f (by simp)).2,
      by simp [merge_all, Frame.keys], by simp [merge_all]⟩
  | cons g fs ih =>
    have hf := h f (by simp)
    have hg := h g (by simp)
    have hmerge : (merge_outer f g).keys.Nodup ∧ (merge_outer f g).WF := by
      constructor
      · rw [merge_keys_eq f g hf.1 hg.1]
        exact mergedKeys_nodup hf.1 hg.1
      · exact merge_WF hf.1 hg.1 hf.2 hg.2
    have hstep : merge_all f (g :: fs) = merge_all (merge_outer f g) fs := rfl
    have h' : ∀ G ∈ (merge_outer f g) :: fs, G.keys.Nodup ∧ G.WF := by
      intro G hG
      rcases List.mem_cons.mp hG with rfl | hGfs
      · exact hmerge
      · exact h G (by simp [hGfs])
    obtain ⟨ihcol, ihnd, ihwf, ihmem, ihcells⟩ := ih (merge_outer f g) h'
    rw [hstep]
    refine ⟨?_, ihnd, ihwf, ?_, ?_⟩
    · rw [ihcol, List.flatMap_cons, List.flatMap_cons, List.flatMap_cons]
      show (f.colNames ++ g.colNames) ++ _ = _
      rw [List.append_assoc]
    · intro k
      rw [ihmem k]
      constructor
      · rintro ⟨G, hG, hk⟩
        rcases List.mem_cons.mp hG with rfl | hGfs
        · rw [merge_keys_eq f g hf.1 hg.1] at hk
          rcases mem_mergedKeys.mp hk with hkf | hkg
          · exact ⟨f, by simp, hkf⟩
          · exact ⟨g, by simp, hkg⟩
        · exact ⟨G, by simp [hGfs], hk⟩
      · rintro ⟨G, hG, hk⟩
        rcases List.mem_cons.mp hG with rfl | hG2
        · refine ⟨merge_outer G g, by simp, ?_⟩
          rw [merge_keys_eq G g hf.1 hg.1]
          exact mem_mergedKeys.mpr (Or.inl hk)
        · rcases List.mem_cons.mp hG2 with rfl | hGfs
          · refine ⟨merge_outer f G, by simp, ?_⟩
            rw [merge_keys_eq f G hf.1 hg.1]
            exact mem_mergedKeys.mpr (Or.inr hk)
          · exact ⟨G, by simp [hGfs], hk⟩
    · intro k
      rw [ihcells k]
      simp only [List.flatMap_cons]
      rw [cellsOf_merge hf.1 hg.1 k, List.append_assoc]

/-- C7 counterexample: when one per-metric table carries the same
`(state_name, county_name, year)` key on two rows, the pandas outer merge
duplicates the key, so the key does not appear exactly once in the merged
table. -/
theorem claim_C7_counterexample :
    ¬((merge_all
        ⟨["beef_cattle_head"],
          [(("OREGON", "LANE", "2022"), [some "1"]),
           (("OREGON", "LANE", "2022"), [some "2"])]⟩
        [⟨["hay_acres"], [(("OREGON", "LANE", "2022"), [some "3"])]⟩]).keys.count
      ("OREGON", "LANE", "2022") = 1) := by decide

/-- C7 (amended): provided each input table's keys are unique, every key
appearing in at least one input table appears exactly once in the fold of
outer joins, and a row whose key is missing from the other table of a
merge is kept, padded with absent cells, never dropped. -/
theorem claim_C7 (f : Frame) (fs : List Frame)
    (hnd : ∀ G ∈ f :: fs, G.keys.Nodup) (hwf : ∀ G ∈ f :: fs, G.WF) :
    ((merge_all f fs).keys.Nodup ∧
      ∀ k, k ∈ (merge_all f fs).keys ↔ ∃ G ∈ f :: fs, k ∈ G.keys) ∧
    (∀ (A B : Frame) (ra : Key × List (Option String)), ra ∈ A.rows →
      ra.1 ∉ B.keys →
      (ra.1, ra.2 ++ List.replicate B.colNames.length none) ∈
        (merge_outer A B).rows) ∧
    (∀ (A B : Frame) (rb : Key × List (Option String)), rb ∈ B.rows →
      rb.1 ∉ A.keys →
      (rb.1, List.replicate A.colNames.length none ++ rb.2) ∈
        (merge_outer A B).rows) := by
  obtain ⟨-, hndm, -, hmem, -⟩ :=
    merge_all_spec f fs fun G hG => ⟨hnd G hG, hwf G hG⟩
  refine ⟨⟨hndm, hmem⟩, ?_, ?_⟩
  · intro A B ra hra hnotin
    apply List.mem_append_left
    apply List.mem_flatMap.mpr
    refine ⟨ra, hra, ?_⟩
    have hnil : B.rows.filter (fun rb => decide (rb.1 = ra.1)) = [] :=
      List.filter_eq_nil_iff.mpr fun rb hrb => by
        simp only [decide_eq_true_eq]
        intro he
        exact hnotin (he ▸ List.mem_map_of_mem Prod.fst hrb)
    rw [hnil]
    simp
  · intro A B rb hrb hnotin
    apply List.mem_append_right
    refine List.mem_map.mpr ⟨rb, List.mem_filter.mpr ⟨hrb, ?_⟩, rfl⟩
    refine List.all_eq_true.mpr fun ra hra => ?_
    simp only [Bool.not_eq_true', decide_eq_false_iff_not]
    intro he
    exact hnotin (he ▸ List.mem_map_of_mem Prod.fst hra)

/-- C7 witness. -/
theorem claim_C7_witness :
    ((merge_all ⟨["beef_cattle_head"], [(("OREGON", "LANE", "2022"), [some "1"])]⟩
        [⟨["hay_acres"], [(("WASHINGTON", "YAKIMA", "2022"), [some "3"])]⟩]).keys.Nodup ∧
      ∀ k, k ∈ (merge_all ⟨["beef_cattle_head"],
          [(("OREGON", "LANE", "2022"), [some "1"])]⟩
        [⟨["hay_acres"], [(("WASHINGTON", "YAKIMA", "2022"), [some "3"])]⟩]).keys ↔
        ∃ G ∈ [Frame.mk ["beef_cattle_head"] [(("OREGON", "LANE", "2022"), [some "1"])],
            ⟨["hay_acres"], [(("WASHINGTON", "YAKIMA", "2022"), [some "3"])]⟩],
          k ∈ G.keys) ∧
    (∀ (A B : Frame) (ra : Key × List (Option String)), ra ∈ A.rows →
      ra.1 ∉ B.keys →
      (ra.1, ra.2 ++ List.replicate B.colNames.length none) ∈
        (merge_outer A B).rows) ∧
    (∀ (A B : Frame) (rb : Key × List (Option String)), rb ∈ B.rows →
      rb.1 ∉ A.keys →
      (rb.1, List.replicate A.colNames.length none ++ rb.2) ∈
        (merge_outer A B).rows) :=
  claim_C7 _ _ (by decide) (by decide)

end AgDash

namespace AgDash

/-! ### Claim C8: the outer-join fold under permutation, duplicates allowed

`pd.merge(how='outer')` pairs matching rows cartesianly, so a merged table
is described per key by a product of the per-frame row choices; the
product is commutative and associative once a row is read as the multiset
of its (column, value) cells, which gives order-invariance of the fold
with no uniqueness assumption on the input keys. -/

/-- The cell rows a frame contributes for a key in an outer merge: its
matching rows' cells, or one all-NaN row when the key is absent. -/
def cellsListOf (G : Frame) (k : Key) : List (List (Option String)) :=
  match G.rows.filter (fun r => decide (r.1 = k)) with
  | [] => [List.replicate G.colNames.length none]
  | ms => ms.map Prod.snd

/-- Cartesian concatenation of row choices, the way `pd.merge` pairs
matching rows. -/
def rowProduct (xs ys : List (List (Option String))) :
    List (List (Option String)) :=
  xs.flatMap fun x => ys.map fun y => x ++ y

/-- A row as the multiset of its (column, value) cells. -/
def namedRow (colNames : List String) (cells : List (Option String)) :
    Multiset (String × Option String) :=
  (colNames.zip cells : List (String × Option String))

/-- The multiset of named rows a frame contributes for a key. -/
def mrows (G : Frame) (k : Key) :
    Multiset (Multiset (String × Option String)) :=
  ((cellsListOf G k).map (namedRow G.colNames) :
    List (Multiset (String × Option String)))

/-- Every way to join one row of `X` with one row of `Y`. -/
def mprod {α : Type} [AddCommMonoid α] (X Y : Multiset α) : Multiset α :=
  X.bind fun x => Y.map fun y => x + y

/-- The multiset of a merged table's rows carrying a given key, each row
as its (column, value) multiset. -/
def namedRowsAt (M : Frame) (k : Key) :
    Multiset (Multiset (String × Option String)) :=
  ((M.rows.filter fun r => decide (r.1 = k)).map fun r =>
    namedRow M.colNames r.2 : List (Multiset (String × Option String)))

theorem filter_flatMap_list {α β : Type} (l : List α) (F : α → List β)
    (p : β → Bool) :
    (l.flatMap F).filter p = l.flatMap fun a => (F a).filter p := by
  induction l with
  | nil => rfl
  | cons a t ih => simp only [List.flatMap_cons, List.filter_append, ih]

theorem flatMap_congr_mem {α β : Type} {l : List α} {f g : α → List β}
    (h : ∀ a ∈ l, f a = g a) : l.flatMap f = l.flatMap g := by
  induction l with
  | nil => rfl
  | cons a t ih =>
    rw [List.flatMap_cons, List.flatMap_cons, h a (by simp),
      ih fun x hx => h x (by simp [hx])]

theorem flatMap_guard {α β : Type} (l : List α) (q : α → Prop)
    [DecidablePred q] (F : α → List β) :
    (l.flatMap fun a => if q a then F a else []) =
      (l.filter fun a => decide (q a)).flatMap F := by
  induction l with
  | nil => rfl
  | cons a t ih =>
    by_cases h : q a <;>
      simp [List.flatMap_cons, List.filter_cons, h, ih]

theorem filter_const_of_mem {α : Type} {l : List α} {p : α → Bool} {c : Bool}
    (h : ∀ a ∈ l, p a = c) : l.filter p = if c then l else [] := by
  induction l with
  | nil => cases c <;> rfl
  | cons a t ih =>
    rw [List.filter_cons, h a (by simp), ih fun x hx => h x (by simp [hx])]
    cases c <;> simp

theorem filter_key_eq_nil {G : Frame} {k : Key} :
    G.rows.filter (fun r => decide (r.1 = k)) = [] ↔ k ∉ G.keys := by
  rw [List.filter_eq_nil_iff]
  constructor
  · intro h hk
    obtain ⟨r, hr, hkey⟩ := List.mem_map.mp hk
    exact h r hr (by simp [hkey])
  · intro h r hr
    simp only [decide_eq_true_eq]
    intro he
    exact h (he ▸ List.mem_map_of_mem Prod.fst hr)

theorem all_ne_key (A : Frame) (x : Key) :
    (A.rows.all fun ra => !decide (ra.1 = x)) = !decide (x ∈ A.keys) := by
  rw [Bool.eq_iff_iff]
  simp only [List.all_eq_true, Bool.not_eq_true', decide_eq_false_iff_not,
    decide_eq_true_eq, Bool.not_eq_true]
  constructor
  · intro h hmem
    obtain ⟨ra, hra, hkey⟩ := List.mem_map.mp hmem
    exact h ra hra hkey
  · intro h ra hra hkey
    exact h (hkey ▸ List.mem_map_of_mem Prod.fst hra)

end AgDash

namespace AgDash

/-- The merged rows one left row produces (`pd.merge`): one padded row
when the right table lacks its key, else one row per match. -/
def mergeChoice (B : Frame) (ra : Key × List (Option String)) :
    List (Key × List (Option String)) :=
  match B.rows.filter (fun rb => decide (rb.1 = ra.1)) with
  | [] => [(ra.1, ra.2 ++ List.replicate B.colNames.length none)]
  | ms => ms.map fun rb => (ra.1, ra.2 ++ rb.2)

theorem mergeChoice_keys (B : Frame) (ra : Key × List (Option String)) :
    ∀ r ∈ mergeChoice B ra, r.1 = ra.1 := by
  intro r hr
  rw [mergeChoice] at hr
  cases hms : B.rows.filter (fun rb => decide (rb.1 = ra.1)) with
  | nil =>
    rw [hms] at hr
    simp only [List.mem_singleton] at hr
    rw [hr]
  | cons rb ms =>
    rw [hms] at hr
    obtain ⟨rb', _, rfl⟩ := List.mem_map.mp hr
    rfl

theorem mergeChoice_ne_nil (B : Frame) (ra : Key × List (Option String)) :
    mergeChoice B ra ≠ [] := by
  rw [mergeChoice]
  cases hms : B.rows.filter (fun rb => decide (rb.1 = ra.1)) with
  | nil => simp
  | cons rb ms => simp

theorem merge_rows_filter (A B : Frame) (k : Key) :
    (merge_outer A B).rows.filter (fun r => decide (r.1 = k)) =
      ((A.rows.filter fun ra => decide (ra.1 = k)).flatMap (mergeChoice B)) ++
      (if k ∈ A.keys then []
       else (B.rows.filter fun rb => decide (rb.1 = k)).map
         fun rb => (rb.1, List.replicate A.colNames.length none ++ rb.2)) := by
  have hrows : (merge_outer A B).rows =
      A.rows.flatMap (mergeChoice B) ++
      ((B.rows.filter fun rb => A.rows.all fun ra => !decide (ra.1 = rb.1)).map
        fun rb => (rb.1, List.replicate A.colNames.length none ++ rb.2)) := rfl
  rw [hrows, List.filter_append]
  congr 1
  · rw [filter_flatMap_list]
    have hguard : ∀ ra : Key × List (Option String),
        ((mergeChoice B ra).filter fun r => decide (r.1 = k)) =
          if decide (ra.1 = k) = true then mergeChoice B ra else [] := by
      intro ra
      rw [@filter_const_of_mem _ (mergeChoice B ra) _ (decide (ra.1 = k))
        fun r hr => by rw [mergeChoice_keys B ra r hr]]
    calc A.rows.flatMap (fun ra => (mergeChoice B ra).filter
          fun r => decide (r.1 = k)) =
        A.rows.flatMap fun ra =>
          if decide (ra.1 = k) = true then mergeChoice B ra else [] :=
      flatMap_congr_mem fun ra _ => hguard ra
    _ = (A.rows.filter fun ra => decide (decide (ra.1 = k) = true)).flatMap
          (mergeChoice B) := flatMap_guard _ _ _
    _ = (A.rows.filter fun ra => decide (ra.1 = k)).flatMap (mergeChoice B) := by
      congr 1
      exact List.filter_congr fun ra _ => by simp
  · rw [List.filter_map]
    simp only [Function.comp_def]
    have hswap : ((B.rows.filter fun rb =>
        A.rows.all fun ra => !decide (ra.1 = rb.1)).filter fun rb =>
          decide (rb.1 = k)) =
        ((B.rows.filter fun rb => decide (rb.1 = k)).filter fun rb =>
          A.rows.all fun ra => !decide (ra.1 = rb.1)) := by
      rw [List.filter_filter, List.filter_filter]
      exact List.filter_congr fun rb _ => Bool.and_comm _ _
    rw [hswap,
      @filter_const_of_mem _ _ _ (!decide (k ∈ A.keys)) fun rb hrb => by
        have hkey : rb.1 = k := by
          have := (List.mem_filter.mp hrb).2
          simpa using this
        rw [hkey, all_ne_key]]
    by_cases h : k ∈ A.keys <;> simp [h]

theorem cellsListOf_of_nil {G : Frame} {k : Key}
    (h : G.rows.filter (fun r => decide (r.1 = k)) = []) :
    cellsListOf G k = [List.replicate G.colNames.length none] := by
  rw [cellsListOf, h]

theorem cellsListOf_of_ne_nil {G : Frame} {k : Key}
    (h : G.rows.filter (fun r => decide (r.1 = k)) ≠ []) :
    cellsListOf G k =
      (G.rows.filter (fun r => decide (r.1 = k))).map Prod.snd := by
  rw [cellsListOf]
  cases hf : G.rows.filter (fun r => decide (r.1 = k)) with
  | nil => exact absurd hf h
  | cons a t => rfl

theorem rowProduct_singleton_right (xs : List (List (Option String)))
    (y : List (Option String)) :
    rowProduct xs [y] = xs.map fun x => x ++ y := by
  rw [rowProduct]
  exact flatMap_eq_map_of_forall fun x _ => rfl

theorem cellsListOf_merge (A B : Frame) (k : Key) :
    cellsListOf (merge_outer A B) k =
      rowProduct (cellsListOf A k) (cellsListOf B k) := by
  have hcol : (merge_outer A B).colNames = A.colNames ++ B.colNames := rfl
  cases hfA : A.rows.filter (fun r => decide (r.1 = k)) with
  | nil =>
    have hkA : k ∉ A.keys := filter_key_eq_nil.mp hfA
    cases hfB : B.rows.filter (fun r => decide (r.1 = k)) with
    | nil =>
      have hm : (merge_outer A B).rows.filter (fun r => decide (r.1 = k)) = [] := by
        rw [merge_rows_filter, hfA, hfB]
        simp [hkA]
      rw [cellsListOf_of_nil hm, cellsListOf_of_nil hfA, cellsListOf_of_nil hfB,
        hcol, List.length_append, List.replicate_add]
      rfl
    | cons rb msB =>
      have hm : (merge_outer A B).rows.filter (fun r => decide (r.1 = k)) =
          (rb :: msB).map fun rb =>
            (rb.1, List.replicate A.colNames.length none ++ rb.2) := by
        rw [merge_rows_filter, hfA, hfB]
        simp [hkA]
      rw [cellsListOf_of_ne_nil (by rw [hm]; simp), hm,
        cellsListOf_of_nil hfA,
        cellsListOf_of_ne_nil (by rw [hfB]; simp), hfB]
      simp [rowProduct, List.map_map, Function.comp_def]
  | cons ra msA =>
    have hkA : k ∈ A.keys := by
      by_contra hk
      rw [filter_key_eq_nil.mpr hk] at hfA
      simp at hfA
    have hkeyall : ∀ r ∈ ra :: msA, r.1 = k := by
      intro r hr
      have hmem : r ∈ A.rows.filter (fun r => decide (r.1 = k)) := by
        rw [hfA]; exact hr
      have := (List.mem_filter.mp hmem).2
      simpa using this
    have hm : (merge_outer A B).rows.filter (fun r => decide (r.1 = k)) =
        (ra :: msA).flatMap (mergeChoice B) := by
      rw [merge_rows_filter, hfA]
      simp [hkA]
    cases hfB : B.rows.filter (fun r => decide (r.1 = k)) with
    | nil =>
      have hchoice : ∀ r ∈ ra :: msA, mergeChoice B r =
          [(r.1, r.2 ++ List.replicate B.colNames.length none)] := by
        intro r hr
        rw [mergeChoice, show B.rows.filter (fun rb => decide (rb.1 = r.1)) = []
          from by rw [hkeyall r hr]; exact hfB]
      have hm2 : (merge_outer A B).rows.filter (fun r => decide (r.1 = k)) =
          (ra :: msA).map fun r =>
            (r.1, r.2 ++ List.replicate B.colNames.length none) := by
        rw [hm, flatMap_congr_mem hchoice]
        exact flatMap_eq_map_of_forall fun r _ => rfl
      rw [cellsListOf_of_ne_nil (by rw [hm2]; simp), hm2,
        cellsListOf_of_ne_nil (by rw [hfA]; simp), hfA,
        cellsListOf_of_nil hfB, List.map_map, rowProduct_singleton_right,
        List.map_map]
      rfl
    | cons rb msB =>
      have hchoice : ∀ r ∈ ra :: msA, mergeChoice B r =
          (rb :: msB).map fun rb => (r.1, r.2 ++ rb.2) := by
        intro r hr
        rw [mergeChoice, show B.rows.filter (fun rb => decide (rb.1 = r.1)) =
          rb :: msB from by rw [hkeyall r hr]; exact hfB]
      have hm2 : (merge_outer A B).rows.filter (fun r => decide (r.1 = k)) =
          (ra :: msA).flatMap fun r =>
            (rb :: msB).map fun rb => (r.1, r.2 ++ rb.2) := by
        rw [hm, flatMap_congr_mem hchoice]
      rw [cellsListOf_of_ne_nil (by rw [hm2]; simp), hm2,
        cellsListOf_of_ne_nil (by rw [hfA]; simp), hfA,
        cellsListOf_of_ne_nil (by rw [hfB]; simp), hfB]
      simp [rowProduct, List.map_flatMap, List.flatMap_map, List.map_map,
        Function.comp_def]

theorem mem_keys_iff_filter {G : Frame} {k : Key} :
    k ∈ G.keys ↔ G.rows.filter (fun r => decide (r.1 = k)) ≠ [] := by
  rw [Ne, filter_key_eq_nil, not_not]

theorem mem_keys_merge {A B : Frame} {k : Key} :
    k ∈ (merge_outer A B).keys ↔ k ∈ A.keys ∨ k ∈ B.keys := by
  rw [mem_keys_iff_filter, merge_rows_filter]
  by_cases hA : k ∈ A.keys
  · rw [if_pos hA]
    constructor
    · intro _
      exact Or.inl hA
    · intro _
      cases hfA : A.rows.filter (fun r => decide (r.1 = k)) with
      | nil => exact absurd hA (filter_key_eq_nil.mp hfA)
      | cons ra msA =>
        simp only [List.flatMap_cons, List.append_nil]
        intro hnil
        rw [List.append_eq_nil] at hnil
        exact mergeChoice_ne_nil B ra hnil.1
  · rw [if_neg hA, show A.rows.filter (fun r => decide (r.1 = k)) = [] from
      filter_key_eq_nil.mpr hA]
    simp only [List.flatMap_nil, List.nil_append]
    rw [Ne, List.map_eq_nil_iff, filter_key_eq_nil, not_not]
    simp [hA]

theorem merge_outer_WF {A B : Frame} (wfA : A.WF) (wfB : B.WF) :
    (merge_outer A B).WF := by
  intro r hr
  rcases List.mem_append.mp hr with h1 | h2
  · obtain ⟨ra, hra, hmem⟩ := List.mem_flatMap.mp h1
    cases hms : B.rows.filter (fun rb => decide (rb.1 = ra.1)) with
    | nil =>
      rw [hms] at hmem
      simp only [List.mem_singleton] at hmem
      subst hmem
      show (ra.2 ++ List.replicate B.colNames.length none).length =
        (A.colNames ++ B.colNames).length
      simp [wfA ra hra]
    | cons rb ms =>
      rw [hms] at hmem
      obtain ⟨rb', hrb', rfl⟩ := List.mem_map.mp hmem
      have hrb2 : rb' ∈ B.rows := by
        rw [← hms] at hrb'
        exact (List.mem_filter.mp hrb').1
      show (ra.2 ++ rb'.2).length = (A.colNames ++ B.colNames).length
      simp [wfA ra hra, wfB rb' hrb2]
  · obtain ⟨rb, hrb, rfl⟩ := List.mem_map.mp h2
    have hrb2 : rb ∈ B.rows := (List.mem_filter.mp hrb).1
    show (List.replicate A.colNames.length none ++ rb.2).length =
      (A.colNames ++ B.colNames).length
    simp [wfB rb hrb2]

theorem cellsListOf_length {G : Frame} (wf : G.WF) (k : Key) :
    ∀ cs ∈ cellsListOf G k, cs.length = G.colNames.length := by
  intro cs hcs
  by_cases hf : G.rows.filter (fun r => decide (r.1 = k)) = []
  · rw [cellsListOf_of_nil hf] at hcs
    simp only [List.mem_singleton] at hcs
    simp [hcs]
  · rw [cellsListOf_of_ne_nil hf] at hcs
    obtain ⟨r, hr, rfl⟩ := List.mem_map.mp hcs
    exact wf r (List.mem_filter.mp hr).1

theorem namedRow_append {nA nB : List String} {x y : List (Option String)}
    (h : nA.length = x.length) :
    namedRow (nA ++ nB) (x ++ y) = namedRow nA x + namedRow nB y := by
  rw [namedRow, namedRow, namedRow, List.zip_append h, ← Multiset.coe_add]

theorem mprod_comm {α : Type} [AddCommMonoid α] (X Y : Multiset α) :
    mprod X Y = mprod Y X := by
  rw [mprod, mprod, Multiset.bind_map_comm]
  exact Multiset.bind_congr fun y _ => Multiset.map_congr rfl fun x _ => add_comm x y

theorem mprod_assoc {α : Type} [AddCommMonoid α] (X Y Z : Multiset α) :
    mprod (mprod X Y) Z = mprod X (mprod Y Z) := by
  rw [mprod, mprod, mprod, mprod, Multiset.bind_assoc]
  refine Multiset.bind_congr fun x _ => ?_
  rw [Multiset.bind_map, Multiset.map_bind]
  refine Multiset.bind_congr fun y _ => ?_
  rw [Multiset.map_map]
  refine Multiset.map_congr rfl fun z _ => ?_
  simp [Function.comp_def, add_assoc]

theorem mprod_zero_left {α : Type} [AddCommMonoid α] (X : Multiset α) :
    mprod {0} X = X := by
  rw [mprod, Multiset.singleton_bind]
  rw [show ((fun y => 0 + y) : α → α) = id from funext fun y => zero_add y]
  exact Multiset.map_id X

theorem mrows_merge {A B : Frame} (wfA : A.WF) (k : Key) :
    mrows (merge_outer A B) k = mprod (mrows A k) (mrows B k) := by
  have hlist : (rowProduct (cellsListOf A k) (cellsListOf B k)).map
      (namedRow (A.colNames ++ B.colNames)) =
      ((cellsListOf A k).map (namedRow A.colNames)).flatMap fun xm =>
        ((cellsListOf B k).map (namedRow B.colNames)).map fun ym => xm + ym := by
    rw [rowProduct, List.map_flatMap, List.flatMap_map]
    refine flatMap_congr_mem fun x hx => ?_
    rw [List.map_map, List.map_map]
    refine List.map_congr_left fun y _ => ?_
    show namedRow (A.colNames ++ B.colNames) (x ++ y) = _
    rw [namedRow_append (cellsListOf_length wfA k x hx).symm]
    rfl
  simp only [mrows, mprod]
  rw [show (merge_outer A B).colNames = A.colNames ++ B.colNames from rfl,
    cellsListOf_merge, hlist]
  simp only [Multiset.map_coe, Multiset.coe_bind]

theorem mrows_foldl (fs : List Frame) :
    ∀ f : Frame, f.WF → (∀ G ∈ fs, G.WF) → ∀ k,
      mrows (fs.foldl merge_outer f) k =
        (fs.map fun G => mrows G k).foldl mprod (mrows f k) := by
  induction fs with
  | nil =>
    intro f _ _ k
    rfl
  | cons g gs ih =>
    intro f hf hgs k
    have h1 : (merge_outer f g).WF :=
      merge_outer_WF hf (hgs g (List.mem_cons_self g gs))
    have h2 : ∀ G ∈ gs, G.WF := fun G hG => hgs G (List.mem_cons_of_mem g hG)
    rw [List.foldl_cons, ih (merge_outer f g) h1 h2 k, mrows_merge hf k,
      List.map_cons, List.foldl_cons]

theorem mrows_merge_all (f : Frame) (fs : List Frame)
    (hwf : ∀ G ∈ f :: fs, G.WF) (k : Key) :
    mrows (merge_all f fs) k =
      ((f :: fs).map fun G => mrows G k).foldl mprod {0} := by
  rw [List.map_cons, List.foldl_cons, mprod_zero_left, merge_all]
  exact mrows_foldl fs f (hwf f (List.mem_cons_self f fs))
    (fun G hG => hwf G (List.mem_cons_of_mem f hG)) k

theorem mem_keys_foldl (fs : List Frame) :
    ∀ (f : Frame) (k : Key),
      k ∈ (fs.foldl merge_outer f).keys ↔
        k ∈ f.keys ∨ ∃ G ∈ fs, k ∈ G.keys := by
  induction fs with
  | nil =>
    intro f k
    simp
  | cons g gs ih =>
    intro f k
    rw [List.foldl_cons, ih (merge_outer f g) k, mem_keys_merge]
    constructor
    · rintro ((h | h) | ⟨G, hG, h⟩)
      · exact Or.inl h
      · exact Or.inr ⟨g, List.mem_cons_self g gs, h⟩
      · exact Or.inr ⟨G, List.mem_cons_of_mem g hG, h⟩
    · rintro (h | ⟨G, hG, h⟩)
      · exact Or.inl (Or.inl h)
      · rcases List.mem_cons.mp hG with rfl | hG2
        · exact Or.inl (Or.inr h)
        · exact Or.inr ⟨G, hG2, h⟩

theorem mem_keys_merge_all (f : Frame) (fs : List Frame) (k : Key) :
    k ∈ (merge_all f fs).keys ↔ ∃ G ∈ f :: fs, k ∈ G.keys := by
  rw [merge_all, mem_keys_foldl]
  constructor
  · rintro (h | ⟨G, hG, h⟩)
    · exact ⟨f, List.mem_cons_self f fs, h⟩
    · exact ⟨G, List.mem_cons_of_mem f hG, h⟩
  · rintro ⟨G, hG, h⟩
    rcases List.mem_cons.mp hG with rfl | hG2
    · exact Or.inl h
    · exact Or.inr ⟨G, hG2, h⟩

theorem namedRowsAt_eq (M : Frame) (k : Key) :
    namedRowsAt M k = if k ∈ M.keys then mrows M k else 0 := by
  by_cases h : k ∈ M.keys
  · rw [if_pos h, namedRowsAt, mrows,
      cellsListOf_of_ne_nil (mem_keys_iff_filter.mp h), List.map_map]
    rfl
  · rw [if_neg h, namedRowsAt,
      show M.rows.filter (fun r => decide (r.1 = k)) = [] from
        filter_key_eq_nil.mpr h]
    rfl

/-- Claim C8: for every collection of per-metric tables and every
permutation of the order in which they are folded through the outer join
on (state_name, county_name, year), the resulting merged table has the
same row set: the same join keys occur, and at each key the two merged
tables carry the same multiset of rows, a row read as the multiset of its
(column name, cell) pairs. The only assumption is rectangularity (each
row carries one cell per column); keys may repeat within an input table. -/
theorem claim_C8 (f₁ f₂ : Frame) (fs₁ fs₂ : List Frame)
    (hperm : (f₁ :: fs₁).Perm (f₂ :: fs₂))
    (hwf : ∀ G ∈ f₁ :: fs₁, G.WF) :
    (∀ k, k ∈ (merge_all f₁ fs₁).keys ↔ k ∈ (merge_all f₂ fs₂).keys) ∧
      ∀ k, namedRowsAt (merge_all f₁ fs₁) k =
        namedRowsAt (merge_all f₂ fs₂) k := by
  have hwf₂ : ∀ G ∈ f₂ :: fs₂, G.WF := fun G hG =>
    hwf G (hperm.mem_iff.mpr hG)
  have hkeys : ∀ k, k ∈ (merge_all f₁ fs₁).keys ↔
      k ∈ (merge_all f₂ fs₂).keys := by
    intro k
    rw [mem_keys_merge_all, mem_keys_merge_all]
    exact ⟨fun ⟨G, hG, h⟩ => ⟨G, hperm.mem_iff.mp hG, h⟩,
      fun ⟨G, hG, h⟩ => ⟨G, hperm.mem_iff.mpr hG, h⟩⟩
  refine ⟨hkeys, fun k => ?_⟩
  have hm : mrows (merge_all f₁ fs₁) k = mrows (merge_all f₂ fs₂) k := by
    rw [mrows_merge_all f₁ fs₁ hwf k, mrows_merge_all f₂ fs₂ hwf₂ k]
    exact (hperm.map fun G => mrows G k).foldl_eq'
      (fun x _ y _ z => by rw [mprod_assoc, mprod_assoc, mprod_comm x y]) {0}
  rw [namedRowsAt_eq, namedRowsAt_eq]
  by_cases h : k ∈ (merge_all f₁ fs₁).keys
  · rw [if_pos h, if_pos ((hkeys k).mp h), hm]
  · rw [if_neg h, if_neg fun h2 => h ((hkeys k).mpr h2)]

/-- C8 witness: two concrete tables, one of them carrying a duplicated
join key, folded in both orders. -/
theorem claim_C8_witness :
    (∀ k, k ∈ (merge_all
        ⟨["beef_cattle_head"],
          [(("OREGON", "LANE", "2022"), [some "1"]),
           (("OREGON", "LANE", "2022"), [some "2"])]⟩
        [⟨["hay_acres"], [(("OREGON", "BENTON", "2022"), [some "3"])]⟩]).keys ↔
      k ∈ (merge_all
        ⟨["hay_acres"], [(("OREGON", "BENTON", "2022"), [some "3"])]⟩
        [⟨["beef_cattle_head"],
          [(("OREGON", "LANE", "2022"), [some "1"]),
           (("OREGON", "LANE", "2022"), [some "2"])]⟩]).keys) ∧
      ∀ k, namedRowsAt (merge_all
        ⟨["beef_cattle_head"],
          [(("OREGON", "LANE", "2022"), [some "1"]),
           (("OREGON", "LANE", "2022"), [some "2"])]⟩
        [⟨["hay_acres"], [(("OREGON", "BENTON", "2022"), [some "3"])]⟩]) k =
      namedRowsAt (merge_all
        ⟨["hay_acres"], [(("OREGON", "BENTON", "2022"), [some "3"])]⟩
        [⟨["beef_cattle_head"],
          [(("OREGON", "LANE", "2022"), [some "1"]),
           (("OREGON", "LANE", "2022"), [some "2"])]⟩]) k :=
  claim_C8
    ⟨["beef_cattle_head"],
      [(("OREGON", "LANE", "2022"), [some "1"]),
       (("OREGON", "LANE", "2022"), [some "2"])]⟩
    ⟨["hay_acres"], [(("OREGON", "BENTON", "2022"), [some "3"])]⟩
    [⟨["hay_acres"], [(("OREGON", "BENTON", "2022"), [some "3"])]⟩]
    [⟨["beef_cattle_head"],
      [(("OREGON", "LANE", "2022"), [some "1"]),
       (("OREGON", "LANE", "2022"), [some "2"])]⟩]
    (List.Perm.swap
      (Frame.mk ["hay_acres"] [(("OREGON", "BENTON", "2022"), [some "3"])])
      (Frame.mk ["beef_cattle_head"]
        [(("OREGON", "LANE", "2022"), [some "1"]),
         (("OREGON", "LANE", "2022"), [some "2"])]) [])
    (by decide)

end AgDash

namespace AgDash

/-! ### Claim C6: idempotence of numeric cleaning

Re-cleaning stringifies a float64 column (`astype(str)`) and parses it
back; the work is a render/parse roundtrip for decimal rationals. -/

theorem natDigitsAux_eq (fuel : Nat) :
    ∀ n : Nat, n ≤ fuel → natDigitsAux fuel n = Nat.digits 10 n := by
  induction fuel with
  | zero =>
    intro n hn
    interval_cases n
    simp [natDigitsAux]
  | succ fuel ih =>
    intro n hn
    by_cases hz : n = 0
    · subst hz; simp [natDigitsAux]
    · rw [natDigitsAux, if_neg hz, ih (n / 10) ?_,
        Nat.digits_def' (by norm_num : 1 < 10) (Nat.pos_of_ne_zero hz)]
      have hlt : n / 10 < n := Nat.div_lt_self (Nat.pos_of_ne_zero hz) (by norm_num)
      omega

theorem natDigits_eq (n : Nat) : natDigits n = Nat.digits 10 n :=
  natDigitsAux_eq n n le_rfl

/-- The ten decimal digit characters. -/
def digitList : List Char :=
  ['0', '1', '2', '3', '4', '5', '6', '7', '8', '9']

theorem digitChar_mem {d : Nat} (h : d < 10) : digitChar d ∈ digitList := by
  interval_cases d <;> decide

theorem digit?_digitChar {d : Nat} (h : d < 10) : digit? (digitChar d) = some d := by
  interval_cases d <;> decide

theorem digitList_props : ∀ c ∈ digitList,
    wsChar c = false ∧ (c != ',') = true ∧ (c != '.') = true ∧ ¬(c = '-') := by
  decide

theorem natChars_ne_nil (n : Nat) : natChars n ≠ [] := by
  rw [natChars]
  by_cases hz : n = 0
  · simp [hz]
  · rw [if_neg hz]
    simp only [ne_eq, List.reverse_eq_nil_iff, List.map_eq_nil_iff]
    rw [natDigits_eq]
    exact Nat.digits_ne_nil_iff_ne_zero.mpr hz

theorem mem_natChars {n : Nat} {c : Char} (h : c ∈ natChars n) : c ∈ digitList := by
  rw [natChars] at h
  by_cases hz : n = 0
  · rw [if_pos hz] at h
    simp only [List.mem_singleton] at h
    subst h; decide
  · rw [if_neg hz, List.mem_reverse] at h
    obtain ⟨d, hd, rfl⟩ := List.mem_map.mp h
    rw [natDigits_eq] at hd
    exact digitChar_mem (Nat.digits_lt_base (by norm_num) hd)

theorem foldl_pushDigit_map (ds : List Nat) (h : ∀ d ∈ ds, d < 10) :
    ∀ a : Nat, (ds.map digitChar).foldl pushDigit (some a) =
      some (ds.foldl (fun x d => 10 * x + d) a) := by
  induction ds with
  | nil => intro a; rfl
  | cons d t ih =>
    intro a
    rw [List.map_cons, List.foldl_cons, List.foldl_cons]
    have hd : pushDigit (some a) (digitChar d) = some (10 * a + d) := by
      rw [pushDigit]
      simp [digit?_digitChar (h d (by simp))]
    rw [hd]
    exact ih (fun x hx => h x (by simp [hx])) (10 * a + d)

theorem foldl_mul_add (ds : List Nat) : ∀ a : Nat,
    ds.foldl (fun x d => 10 * x + d) a =
      a * 10 ^ ds.length + Nat.ofDigits 10 ds.reverse := by
  induction ds with
  | nil => intro a; simp
  | cons d t ih =>
    intro a
    rw [List.foldl_cons, ih (10 * a + d), List.reverse_cons, Nat.ofDigits_append]
    simp only [List.length_cons, List.length_reverse, Nat.ofDigits_singleton]
    ring

theorem parseNatChars_natChars (n : Nat) : parseNatChars (natChars n) = some n := by
  by_cases hz : n = 0
  · subst hz; decide
  · have hne : (natChars n).isEmpty = false := by
      simp [List.isEmpty_iff, natChars_ne_nil n]
    rw [parseNatChars, hne, if_neg (by simp)]
    rw [natChars, if_neg hz, ← List.map_reverse]
    have hlt : ∀ d ∈ (natDigits n).reverse, d < 10 := fun d hd => by
      rw [List.mem_reverse, natDigits_eq] at hd
      exact Nat.digits_lt_base (by norm_num) hd
    rw [foldl_pushDigit_map _ hlt 0, foldl_mul_add]
    simp [natDigits_eq, Nat.ofDigits_digits]

theorem foldl_pushDigit_replicate (j : Nat) :
    (List.replicate j '0').foldl pushDigit (some 0) = some 0 := by
  induction j with
  | zero => rfl
  | succ j ih =>
    rw [List.replicate_succ, List.foldl_cons]
    have : pushDigit (some 0) '0' = some 0 := by decide
    rw [this]
    exact ih

theorem parseNatChars_pad (j n : Nat) :
    parseNatChars (List.replicate j '0' ++ natChars n) = some n := by
  have hne : (List.replicate j '0' ++ natChars n).isEmpty = false := by
    rw [List.isEmpty_eq_false_iff_exists_mem]
    rcases hcase : natChars n with _ | ⟨c, t⟩
    · exact absurd hcase (natChars_ne_nil n)
    · exact ⟨c, by simp [hcase]⟩
  rw [parseNatChars, hne, if_neg (by simp), List.foldl_append,
    foldl_pushDigit_replicate]
  have h := parseNatChars_natChars n
  have hne2 : (natChars n).isEmpty = false := by
    simp [List.isEmpty_iff, natChars_ne_nil n]
  rw [parseNatChars, hne2, if_neg (by simp)] at h
  exact h

theorem natChars_length_le {m k : Nat} (hm : m < 10 ^ k) (hk : 1 ≤ k) :
    (natChars m).length ≤ k := by
  by_cases hz : m = 0
  · subst hz; simpa [natChars] using hk
  · rw [natChars, if_neg hz]
    simp only [List.length_reverse, List.length_map]
    rw [natDigits_eq]
    by_contra hgt
    push_neg at hgt
    have h1 : 10 ^ (Nat.digits 10 m).length ≤ 10 * m :=
      Nat.base_pow_length_digits_le 10 m (by norm_num) hz
    have h2 : 10 * m < 10 ^ (k + 1) := by
      rw [pow_succ, mul_comm (10 ^ k) 10]
      exact (Nat.mul_lt_mul_left (by norm_num : 0 < 10)).mpr hm
    have h3 : 10 ^ (Nat.digits 10 m).length < 10 ^ (k + 1) :=
      lt_of_le_of_lt h1 h2
    have h4 : (Nat.digits 10 m).length < k + 1 :=
      (Nat.pow_lt_pow_iff_right (by norm_num : 1 < 10)).mp h3
    omega

theorem dvd_ten_pow_self (n k : Nat) (h : n ∣ 10 ^ k) : n ∣ 10 ^ n := by
  induction n using Nat.strong_induction_on with
  | _ n ih =>
    rcases eq_or_ne n 0 with rfl | h0
    · exact absurd (Nat.eq_zero_of_zero_dvd h) (pow_ne_zero k (by norm_num))
    rcases eq_or_ne n 1 with rfl | h1
    · exact one_dvd _
    obtain ⟨p, hp, hpn⟩ := Nat.exists_prime_and_dvd h1
    have hp10 : p ∣ 10 := hp.dvd_of_dvd_pow (hpn.trans h)
    obtain ⟨m, rfl⟩ := hpn
    have hm0 : m ≠ 0 := by rintro rfl; simp at h0
    have hp2 : 2 ≤ p := hp.two_le
    have hmlt : m < p * m := by
      calc m = 1 * m := (one_mul m).symm
      _ < p * m := (Nat.mul_lt_mul_right (Nat.pos_of_ne_zero hm0)).mpr (by omega)
    have hmdvd : m ∣ 10 ^ k := (Dvd.intro_left p rfl).trans h
    have ihm : m ∣ 10 ^ m := ih m hmlt hmdvd
    have hstep : p * m ∣ 10 * 10 ^ m := mul_dvd_mul hp10 ihm
    have h10 : 10 * 10 ^ m = 10 ^ (m + 1) := by rw [pow_succ]; ring
    calc p * m ∣ 10 ^ (m + 1) := h10 ▸ hstep
    _ ∣ 10 ^ (p * m) := pow_dvd_pow 10 (by omega)

theorem pow10exp_dvd {d : Nat} (h : ∃ k, d ∣ 10 ^ k) :
    d ∣ 10 ^ pow10exp d := by
  obtain ⟨k, hk⟩ := h
  have hself : d ∣ 10 ^ d := dvd_ten_pow_self d k hk
  cases hfind : (List.range (d + 1)).find? (fun j => 10 ^ j % d == 0) with
  | none =>
    exfalso
    have hnone := List.find?_eq_none.mp hfind d (by simp)
    have hmod : 10 ^ d % d = 0 := Nat.dvd_iff_mod_eq_zero.mp hself
    exact hnone (by simp [hmod])
  | some j =>
    have hj := List.find?_some hfind
    simp only [beq_iff_eq] at hj
    have hdvd : d ∣ 10 ^ j := Nat.dvd_iff_mod_eq_zero.mpr hj
    rw [pow10exp, hfind]
    simpa using hdvd

theorem parseUnsigned_den_dvd {cs : List Char} {q : ℚ}
    (h : parseUnsignedChars cs = some q) : ∃ j, q.den ∣ 10 ^ j := by
  rw [parseUnsignedChars] at h
  by_cases hdrop : ((cs.dropWhile fun c => c != '.').isEmpty : Bool)
  · rw [if_pos hdrop] at h
    cases hp : parseNatChars cs with
    | none => rw [hp] at h; simp at h
    | some n =>
      rw [hp] at h
      have h' : ((n : ℚ)) = q := Option.some_injective _ h
      exact ⟨0, by rw [← h', Rat.den_natCast]; simp⟩
  · rw [if_neg hdrop] at h
    cases hi : parseNatChars (cs.takeWhile fun c => c != '.') with
    | none => rw [hi] at h; simp at h
    | some i =>
      cases hf : parseNatChars ((cs.dropWhile fun c => c != '.').tail) with
      | none => rw [hi, hf] at h; simp at h
      | some f =>
        rw [hi, hf] at h
        set L := ((cs.dropWhile fun c => c != '.').tail).length with hL
        have h' : (i : ℚ) + (f : ℚ) / (10 : ℚ) ^ L = q :=
          Option.some_injective _ h
        refine ⟨L, ?_⟩
        have h10 : ((10 : ℚ)) ^ L ≠ 0 := by positivity
        have hq : q = (((i : ℤ) * 10 ^ L + f : ℤ) : ℚ) /
            (((10 ^ L : ℤ)) : ℚ) := by
          rw [← h']
          push_cast
          field_simp
        have hdvd := Rat.den_dvd ((i : ℤ) * 10 ^ L + f) (10 ^ L : ℤ)
        rw [Rat.divInt_eq_div, ← hq] at hdvd
        have hcast : ((q.den : ℤ)) ∣ (((10 ^ L : ℕ) : ℤ)) := by
          exact_mod_cast hdvd
        exact_mod_cast hcast

theorem parseSigned_den_dvd {cs : List Char} {q : ℚ}
    (h : parseSignedChars cs = some q) : ∃ j, q.den ∣ 10 ^ j := by
  cases cs with
  | nil => exact parseUnsigned_den_dvd h
  | cons c rest =>
    rw [parseSignedChars] at h
    by_cases hc : c = '-'
    · rw [if_pos hc] at h
      cases hu : parseUnsignedChars rest with
      | none => rw [hu] at h; simp at h
      | some q' =>
        rw [hu] at h
        have h' : -q' = q := Option.some_injective _ h
        obtain ⟨j, hj⟩ := parseUnsigned_den_dvd hu
        exact ⟨j, by rw [← h', Rat.neg_den]; exact hj⟩
    · rw [if_neg hc] at h
      exact parseUnsigned_den_dvd h

theorem takeWhile_intChars {intC rest : List Char}
    (h : ∀ c ∈ intC, (c != '.') = true) :
    (intC ++ '.' :: rest).takeWhile (fun c => c != '.') = intC ∧
      (intC ++ '.' :: rest).dropWhile (fun c => c != '.') = '.' :: rest := by
  constructor
  · rw [List.takeWhile_append_of_pos h]
    simp [List.takeWhile_cons]
  · rw [List.dropWhile_append_of_pos h]
    simp [List.dropWhile_cons]

theorem parseUnsigned_render (n k : Nat) (hk : 1 ≤ k) :
    parseUnsignedChars (natChars (n / 10 ^ k) ++ '.' ::
      (List.replicate (k - (natChars (n % 10 ^ k)).length) '0' ++
        natChars (n % 10 ^ k))) = some ((n : ℚ) / (10 : ℚ) ^ k) := by
  have hdigits : ∀ c ∈ natChars (n / 10 ^ k), (c != '.') = true := fun c hc =>
    (digitList_props c (mem_natChars hc)).2.2.1
  obtain ⟨htake, hdrop⟩ :=
    @takeWhile_intChars (natChars (n / 10 ^ k))
      (List.replicate (k - (natChars (n % 10 ^ k)).length) '0' ++
        natChars (n % 10 ^ k)) hdigits
  rw [parseUnsignedChars, hdrop, htake]
  rw [if_neg (by simp)]
  simp only [List.tail_cons]
  rw [parseNatChars_natChars, parseNatChars_pad]
  have hlen : (List.replicate (k - (natChars (n % 10 ^ k)).length) '0' ++
      natChars (n % 10 ^ k)).length = k := by
    have hFlt : n % 10 ^ k < 10 ^ k := Nat.mod_lt _ (pow_pos (by norm_num) k)
    have hle := natChars_length_le hFlt hk
    simp only [List.length_append, List.length_replicate]
    omega
  rw [hlen]
  simp only [Option.some_bind, Option.map_some]
  have hmod : 10 ^ k * (n / 10 ^ k) + n % 10 ^ k = n := Nat.div_add_mod n (10 ^ k)
  have hcast : (n : ℚ) = (10 : ℚ) ^ k * ((n / 10 ^ k : ℕ) : ℚ) +
      ((n % 10 ^ k : ℕ) : ℚ) := by
    exact_mod_cast (congrArg (fun m : ℕ => (m : ℚ)) hmod).symm
  rw [hcast]
  have h10 : ((10 : ℚ)) ^ k ≠ 0 := by positivity
  field_simp
  ring

theorem natAbs_div_eq_abs {q : ℚ} {k : Nat} (hk : q.den ∣ 10 ^ k) :
    ((q.num.natAbs * 10 ^ k / q.den : ℕ) : ℚ) / (10 : ℚ) ^ k = |q| := by
  have hdvd : q.den ∣ q.num.natAbs * 10 ^ k := Dvd.dvd.mul_left hk _
  have hden0 : ((q.den : ℚ)) ≠ 0 := by
    exact_mod_cast q.den_nz
  have h10 : ((10 : ℚ)) ^ k ≠ 0 := by positivity
  rw [Nat.cast_div hdvd hden0]
  push_cast
  rw [Int.cast_natAbs]
  have habs : |q| = |(q.num : ℚ)| / ((q.den : ℚ)) := by
    conv_lhs => rw [← Rat.num_div_den q]
    rw [abs_div,
      abs_of_pos (show (0 : ℚ) < ((q.den : ℚ)) by exact_mod_cast q.pos)]
  rw [habs]
  field_simp
  ring

theorem renderBody_chars {q : ℚ} : ∀ c ∈ renderBody q,
    c = '.' ∨ c ∈ digitList := by
  intro c hc
  rw [renderBody] at hc
  by_cases hk0 : pow10exp q.den = 0
  · rw [if_pos hk0] at hc
    rcases List.mem_append.mp hc with hmem | hmem
    · exact Or.inr (mem_natChars hmem)
    · have hdot : c = '.' ∨ c = '0' := by simpa using hmem
      rcases hdot with rfl | rfl
      · exact Or.inl rfl
      · exact Or.inr (by decide)
  · rw [if_neg hk0] at hc
    rcases List.mem_append.mp hc with hmem | hmem
    · exact Or.inr (mem_natChars hmem)
    · rcases List.mem_cons.mp hmem with rfl | hmem2
      · exact Or.inl rfl
      · rcases List.mem_append.mp hmem2 with hmem3 | hmem3
        · exact Or.inr (by rw [List.eq_of_mem_replicate hmem3]; decide)
        · exact Or.inr (mem_natChars hmem3)

theorem renderRat_chars {q : ℚ} : ∀ c ∈ renderRat q,
    wsChar c = false ∧ (c != ',') = true := by
  have hbody : ∀ c ∈ renderBody q, wsChar c = false ∧ (c != ',') = true := by
    intro c hc
    rcases renderBody_chars c hc with rfl | hd
    · exact ⟨by decide, by decide⟩
    · exact ⟨(digitList_props c hd).1, (digitList_props c hd).2.1⟩
  intro c hc
  rw [renderRat] at hc
  by_cases hneg : q < 0
  · rw [if_pos hneg] at hc
    rcases List.mem_cons.mp hc with rfl | hc2
    · exact ⟨by decide, by decide⟩
    · exact hbody c hc2
  · rw [if_neg hneg] at hc
    exact hbody c hc

theorem stripChars_no_ws {l : List Char} (h : ∀ c ∈ l, wsChar c = false) :
    stripChars l = l := by
  have h1 : l.dropWhile wsChar = l := by
    cases l with
    | nil => rfl
    | cons a t => rw [List.dropWhile_cons, h a (by simp)]; simp
  have h2 : l.reverse.dropWhile wsChar = l.reverse := by
    cases hrev : l.reverse with
    | nil => rfl
    | cons a t =>
      have ha : a ∈ l := by
        rw [← List.mem_reverse, hrev]
        simp
      rw [List.dropWhile_cons, h a ha]
      simp
  rw [stripChars, h1, h2, List.reverse_reverse]

theorem removeCommas_no_comma {l : List Char}
    (h : ∀ c ∈ l, (c != ',') = true) : removeCommas l = l :=
  List.filter_eq_self.mpr h

theorem renderBody_parse {q : ℚ} (h : q.den ∣ 10 ^ pow10exp q.den) :
    parseUnsignedChars (renderBody q) = some |q| := by
  rw [renderBody]
  by_cases hk0 : pow10exp q.den = 0
  · rw [if_pos hk0, hk0]
    rw [hk0] at h
    have hden1 : q.den = 1 := Nat.dvd_one.mp (by simpa using h)
    have habs : ((q.num.natAbs * 10 ^ (0 : ℕ) / q.den : ℕ) : ℚ) /
        (10 : ℚ) ^ (0 : ℕ) = |q| := natAbs_div_eq_abs (by simp [hden1])
    set n := q.num.natAbs * 10 ^ (0 : ℕ) / q.den with hndef
    have h1 : natChars n ++ ['.', '0'] =
        natChars ((10 * n) / 10 ^ 1) ++ '.' ::
          (List.replicate (1 - (natChars ((10 * n) % 10 ^ 1)).length) '0' ++
            natChars ((10 * n) % 10 ^ 1)) := by
      have hdiv : (10 * n) / 10 ^ 1 = n := by
        rw [pow_one]
        exact Nat.mul_div_cancel_left n (by norm_num)
      have hmod : (10 * n) % 10 ^ 1 = 0 := by
        rw [pow_one]
        exact Nat.mul_mod_right 10 n
      rw [hdiv, hmod]
      rfl
    rw [h1, parseUnsigned_render (10 * n) 1 le_rfl]
    have hval : ((10 * n : ℕ) : ℚ) / (10 : ℚ) ^ (1 : ℕ) = (n : ℚ) := by
      push_cast
      rw [pow_one, mul_comm, mul_div_assoc]
      norm_num
    rw [hval]
    rw [← habs]
    norm_num
  · rw [if_neg hk0]
    rw [parseUnsigned_render _ _ (by omega)]
    rw [natAbs_div_eq_abs h]

theorem renderRat_parse {q : ℚ} (h : q.den ∣ 10 ^ pow10exp q.den) :
    parseSignedChars (renderRat q) = some q := by
  rw [renderRat]
  by_cases hneg : q < 0
  · rw [if_pos hneg, parseSignedChars, if_pos rfl, renderBody_parse h]
    simp only [Option.map_some']
    rw [abs_of_neg hneg, neg_neg]
  · rw [if_neg hneg]
    have hsign : parseSignedChars (renderBody q) =
        parseUnsignedChars (renderBody q) := by
      cases hbody : renderBody q with
      | nil => rfl
      | cons c t =>
        have hc : c ∈ renderBody q := by rw [hbody]; simp
        have hcne : ¬(c = '-') := by
          rcases renderBody_chars c hc with rfl | hd
          · decide
          · exact (digitList_props c hd).2.2.2
        rw [parseSignedChars, if_neg hcne]
    rw [hsign, renderBody_parse h, abs_of_nonneg (not_lt.mp hneg)]

theorem clean_value_den {s : String} {q : ℚ} (h : clean_value s = some q) :
    q.den ∣ 10 ^ pow10exp q.den :=
  pow10exp_dvd (parseSigned_den_dvd h)

theorem reclean_cell_clean (s : String) :
    reclean_cell (clean_value s) = clean_value s := by
  cases hcv : clean_value s with
  | none => decide
  | some q =>
    have hden := clean_value_den hcv
    show clean_value (float_repr (some q)) = some q
    have hfr : float_repr (some q) = ⟨renderRat q⟩ := rfl
    rw [hfr]
    show parseSignedChars (removeCommas (stripChars (renderRat q))) = some q
    rw [stripChars_no_ws fun c hc => (renderRat_chars c hc).1,
      removeCommas_no_comma fun c hc => (renderRat_chars c hc).2]
    exact renderRat_parse hden

/-- C6: numeric cleaning is idempotent — re-cleaning an already-cleaned
column (stringify with `astype(str)`, strip, remove commas, re-parse with
coercion to absent) returns the same column, absent entries included. -/
theorem claim_C6 : ∀ col : List (Option String),
    reclean_column (clean_column col) = clean_column col := by
  intro col
  rw [reclean_column, clean_column, List.map_map]
  refine List.map_congr_left fun c _ => ?_
  show reclean_cell (clean_cell c) = clean_cell c
  rw [clean_cell]
  exact reclean_cell_clean (astype_str c)

end AgDash

section SanityChecks

/-! Concrete evaluations of the embedded functions, including the spec §8
scenarios. -/

open AgDash

example : clean_value " 1,234 " = some 1234 := by decide
example : clean_value "(D)" = none := by decide
example : clean_value "0" = some 0 := by decide
example : clean_value "7500.25" = some (7500 + 1/4) := by with_unfolding_all rfl
example : clean_value "-12.5" = some (-25/2) := by with_unfolding_all rfl
example : clean_value "nan" = none := by decide
example : clean_value "" = none := by decide
example : clean_value "1.2.3" = none := by with_unfolding_all rfl
example : float_repr (some 7500) = "7500.0" := by with_unfolding_all rfl
example : float_repr (some (1/2)) = "0.5" := by with_unfolding_all rfl
example : float_repr (some (-25/2)) = "-12.5" := by with_unfolding_all rfl
example : reclean_cell (some (1/2)) = some (1/2) := by with_unfolding_all rfl
example : reclean_cell none = none := by decide

-- spec §8 scenario: suppressed aggregate, genuine subcategories 5,000 and 2,500
example :
    process_county_records
      [⟨"NOT SPECIFIED", "(D)"⟩, ⟨"CATTLE", "5,000"⟩, ⟨"CATTLE", "2,500"⟩] =
      (some 7500, true) := by with_unfolding_all rfl

-- spec §8 scenario: genuine aggregate wins over subcategories
example :
    process_county_records
      [⟨"NOT SPECIFIED", "12,345"⟩, ⟨"CATTLE", "5,000"⟩] =
      (some 12345, false) := by with_unfolding_all rfl

-- spec §8 scenario: empty record list
example : process_county_records [] = (none, false) := by decide

example :
    (merge_outer
      ⟨["m1"], [(("OR", "LANE", "2022"), [some "1"])]⟩
      ⟨["m2"], [(("OR", "BENTON", "2022"), [some "2"])]⟩).rows =
      [(("OR", "LANE", "2022"), [some "1", none]),
       (("OR", "BENTON", "2022"), [none, some "2"])] := by decide

end SanityChecks
